import Mathlib

/-!
Verification of the Effect composition core of `packages/effect-chain`
(`src/effect.ts`).

Modelling choices (shallow embedding):

* A JavaScript dependency map is a partial assignment of service handles to
  string keys; `dependencies[depKey]` on a missing key yields `undefined`,
  modelled as `none`.
* A settled promise is modelled by an `Outcome`: the ordered list of
  user-callback invocation events it emitted (`log`), the tick at which it
  settled (`time`), and its settlement (`result : Except ε α`, where
  `Except.error` is a rejection carrying the original error value).
* An `Effect` is exactly what the source stores: a function from a
  dependency map (and a start tick) to the outcome of running it.
* A user-supplied asynchronous callback (the argument of `fromPromise`,
  `withSingleDep`, `withDeps`) is a `PromiseSpec`: the events it emits, how
  many ticks it takes, and how it settles.
* The JS event loop is abstracted deterministically: members of `all`/`race`
  are all started at the same tick; `Promise.all` rejects with the earliest
  rejection (ties broken by array order, as the earlier promise's rejection
  is processed first) and otherwise resolves once all members have; warning:
  `Promise.race` adopts the earliest settlement (same tie-break).
-/

namespace EffectChain

/-- A dependency map: a record of named service handles, read-only for the
core. A missing key reads as `undefined` (`none`). -/
def DependencyMap (δ : Type) : Type := String → Option δ

/-- The observable outcome of one `run` call: the user-callback invocation
events emitted in order, the tick at which the returned promise settled, and
the settlement itself (resolution or rejection with the original error). -/
structure Outcome (ε α : Type) where
  log : List String
  time : Nat
  result : Except ε α
  deriving Repr

/-- Behaviour of a user-supplied asynchronous callback: the invocation events
it emits, the number of ticks until its promise settles, and the
settlement. -/
structure PromiseSpec (ε α : Type) where
  log : List String
  delay : Nat
  result : Except ε α
  deriving Repr

/-- An Effect, as in the source: nothing but the stored run function from a
dependency map to a promise of the result (started at a given tick). -/
structure Effect (δ ε α : Type) where
  run : DependencyMap δ → Nat → Outcome ε α

namespace Effect

variable {δ ε α β γ : Type}

/-- `Effect.pure(value)`: `new Effect(async () => value)` — ignores the map,
emits nothing and resolves immediately with the value. -/
def pure (value : α) : Effect δ ε α :=
  ⟨fun _ t => ⟨[], t, Except.ok value⟩⟩

/-- `Effect.fromPromise(promiseFn)`: `new Effect(async () => promiseFn())` —
ignores the map, invokes the factory and adopts its promise's settlement. -/
def fromPromise (promiseFn : Unit → PromiseSpec ε α) : Effect δ ε α :=
  ⟨fun _ t =>
    let p := promiseFn ()
    ⟨p.log, t + p.delay, p.result⟩⟩

/-- `Effect.withSingleDep(depKey, fn)`:
`new Effect(async (dependencies) => fn(dependencies[depKey]))` — reads the
single named key from the map (yielding `undefined`, i.e. `none`, when the
key is absent: there is no runtime validation) and invokes `fn` with it. -/
def withSingleDep (depKey : String) (fn : Option δ → PromiseSpec ε α) :
    Effect δ ε α :=
  ⟨fun dependencies t =>
    let p := fn (dependencies depKey)
    ⟨p.log, t + p.delay, p.result⟩⟩

/-- `Effect.withDeps(fn)`: `new Effect(fn)` — invokes `fn` with the entire
map. -/
def withDeps (fn : DependencyMap δ → PromiseSpec ε α) : Effect δ ε α :=
  ⟨fun dependencies t =>
    let p := fn dependencies
    ⟨p.log, t + p.delay, p.result⟩⟩

/-- `transform(fn)`: runs `self`, then applies the synchronous `fn` to its
success value (no map access, no extra ticks); `fn` returning
`Except.error e` models a thrown exception, which becomes the rejection.
A rejection of `self` propagates unchanged. -/
def transform (e : Effect δ ε α) (fn : α → Except ε β) : Effect δ ε β :=
  ⟨fun dependencies t =>
    let o := e.run dependencies t
    match o.result with
    | Except.ok v => ⟨o.log, o.time, fn v⟩
    | Except.error err => ⟨o.log, o.time, Except.error err⟩⟩

/-- `chain(fn)`: awaits `self`; on resolution `v`, invokes `fn v` and runs
the returned Effect against the same map, adopting its settlement; on
rejection, the rejection is returned as is and `fn` is never consulted. -/
def chain (e : Effect δ ε α) (fn : α → Effect δ ε β) : Effect δ ε β :=
  ⟨fun dependencies t =>
    let o := e.run dependencies t
    match o.result with
    | Except.ok v =>
      let o2 := (fn v).run dependencies o.time
      ⟨o.log ++ o2.log, o2.time, o2.result⟩
    | Except.error err => ⟨o.log, o.time, Except.error err⟩⟩

/-- One step of the `Promise.all` rejection scan: keep the rejection with
the smallest settle tick, earlier array position winning ties (the earlier
promise's rejection is processed first by the event loop). -/
def frStep (acc : Option (Nat × ε)) (o : Outcome ε α) : Option (Nat × ε) :=
  match o.result with
  | Except.ok _ => acc
  | Except.error err =>
    match acc with
    | none => some (o.time, err)
    | some p => if o.time < p.1 then some (o.time, err) else some p

/-- The first rejection (by settle tick, ties by array order) among a list
of member outcomes, if any. -/
def firstRejection (outs : List (Outcome ε α)) : Option (Nat × ε) :=
  outs.foldl frStep none

/-- The tick at which all member promises have settled. -/
def maxSettleTime (t : Nat) (outs : List (Outcome ε α)) : Nat :=
  outs.foldl (fun acc o => max acc o.time) t

/-- `Effect.all(effects)`: starts every member against the same map at the
same tick (`effects.map(eff => eff.run(dependencies))`), then awaits
`Promise.all`: if every member resolves, it resolves with the ordered list
of results once all have settled; if some member rejects, it rejects with
the earliest rejection's original error at that rejection's tick. Members
are never cancelled: every member's events appear in the log. -/
def all (effects : List (Effect δ ε α)) : Effect δ ε (List α) :=
  ⟨fun dependencies t =>
    let outs := effects.map (fun e => e.run dependencies t)
    let allLog := (outs.map Outcome.log).flatten
    match firstRejection outs with
    | some (tr, err) => ⟨allLog, tr, Except.error err⟩
    | none =>
      ⟨allLog, maxSettleTime t outs,
        Except.ok (outs.filterMap (fun o => o.result.toOption))⟩⟩

/-- The earliest of a bag of member outcomes (smallest settle tick, earlier
array position winning ties), as adopted by `Promise.race`. -/
def earliestSettled (acc : Outcome ε α) : List (Outcome ε α) → Outcome ε α
  | [] => acc
  | o :: rest => earliestSettled (if o.time < acc.time then o else acc) rest

/-- `Effect.race(effects)`: starts every member against the same map at the
same tick and adopts the first settlement — resolution or rejection —
among them. `Promise.race` of an empty array never settles, so the model
takes the statically non-empty list `e :: rest`. Losers are not cancelled:
every member's events appear in the log. -/
def race (e : Effect δ ε α) (rest : List (Effect δ ε α)) : Effect δ ε α :=
  ⟨fun dependencies t =>
    let o0 := e.run dependencies t
    let os := rest.map (fun x => x.run dependencies t)
    let w := earliestSettled o0 os
    ⟨o0.log ++ (os.map Outcome.log).flatten, w.time, w.result⟩⟩

/-- The loop body of `Effect.sequence`: awaits each member in list order,
starting the next only at the tick the previous one resolved; the first
rejection is returned at once and later members are never started. -/
def seqRun (m : DependencyMap δ) : List (Effect δ ε α) → Nat → Outcome ε (List α)
  | [], t => ⟨[], t, Except.ok []⟩
  | e :: rest, t =>
    let o := e.run m t
    match o.result with
    | Except.error err => ⟨o.log, o.time, Except.error err⟩
    | Except.ok v =>
      let o2 := seqRun m rest o.time
      ⟨o.log ++ o2.log, o2.time,
        match o2.result with
        | Except.ok vs => Except.ok (v :: vs)
        | Except.error err => Except.error err⟩

/-- `Effect.sequence(effects)`: runs the members strictly one at a time in
list order via the awaiting for-loop. -/
def sequence (effects : List (Effect δ ε α)) : Effect δ ε (List α) :=
  ⟨fun dependencies t => seqRun dependencies effects t⟩

end Effect

section Construction

variable {δ ε α β : Type}

/-- A synchronous host-language step instrumented with a running count of
user-callback invocations: it returns its value together with the updated
count. Each embedding below is the construction-time behaviour of one
`Effect` constructor; every constructor body in the source only allocates a
closure (`new Effect(...)`) and invokes no user callback, so each leaves
the count exactly as it was. -/
def Sync (σ : Type) : Type := Nat → σ × Nat

/-- Construction of `Effect.pure(value)`. -/
def pureSync (value : α) : Sync (Effect δ ε α) :=
  fun n => (Effect.pure value, n)

/-- Construction of `Effect.fromPromise(promiseFn)`: the factory is stored,
not invoked. -/
def fromPromiseSync (promiseFn : Unit → PromiseSpec ε α) : Sync (Effect δ ε α) :=
  fun n => (Effect.fromPromise promiseFn, n)

/-- Construction of `Effect.withSingleDep(depKey, fn)`. -/
def withSingleDepSync (depKey : String) (fn : Option δ → PromiseSpec ε α) :
    Sync (Effect δ ε α) :=
  fun n => (Effect.withSingleDep depKey fn, n)

/-- Construction of `Effect.withDeps(fn)`. -/
def withDepsSync (fn : DependencyMap δ → PromiseSpec ε α) : Sync (Effect δ ε α) :=
  fun n => (Effect.withDeps fn, n)

/-- Construction of `self.transform(fn)`: builds a new closure over `self`
and `fn`. -/
def transformSync (e : Effect δ ε α) (fn : α → Except ε β) : Sync (Effect δ ε β) :=
  fun n => (e.transform fn, n)

/-- Construction of `self.chain(fn)`: builds a new closure over `self` and
`fn`. -/
def chainSync (e : Effect δ ε α) (fn : α → Effect δ ε β) : Sync (Effect δ ε β) :=
  fun n => (e.chain fn, n)

/-- Construction of `Effect.all(effects)`. -/
def allSync (effects : List (Effect δ ε α)) : Sync (Effect δ ε (List α)) :=
  fun n => (Effect.all effects, n)

/-- Construction of `Effect.race(effects)` on a non-empty list. -/
def raceSync (e : Effect δ ε α) (rest : List (Effect δ ε α)) : Sync (Effect δ ε α) :=
  fun n => (Effect.race e rest, n)

/-- Construction of `Effect.sequence(effects)`. -/
def sequenceSync (effects : List (Effect δ ε α)) : Sync (Effect δ ε (List α)) :=
  fun n => (Effect.sequence effects, n)

end Construction

/-- An empty dependency map (the `{}` of the tests): every key is absent. -/
def emptyDeps : DependencyMap Nat := fun _ => none

end EffectChain

namespace EffectChain

variable {δ ε α β γ : Type}

theorem forallTwo_exists_of_mem {R : α → β → Prop} {xs : List α} {ys : List β}
    (h : List.Forall₂ R xs ys) : ∀ x ∈ xs, ∃ y, R x y := by
  induction h with
  | nil => intro x hx; cases hx
  | cons h1 _ ih =>
    intro x hx
    rcases List.mem_cons.1 hx with rfl | hx'
    · exact ⟨_, h1⟩
    · exact ih x hx'

theorem frStep_foldl_ok (outs : List (Outcome ε α)) :
    ∀ acc : Option (Nat × ε),
      (∀ o ∈ outs, ∃ v, o.result = Except.ok v) →
      outs.foldl Effect.frStep acc = acc := by
  induction outs with
  | nil => intro acc _; rfl
  | cons o rest ih =>
    intro acc h
    rcases h o (List.mem_cons_self o rest) with ⟨v, hv⟩
    have hstep : Effect.frStep acc o = acc := by
      simp [Effect.frStep, hv]
    rw [List.foldl_cons, hstep]
    exact ih acc fun o' ho' => h o' (List.mem_cons_of_mem _ ho')

theorem filterMap_result_toOption {outs : List (Outcome ε α)} {vs : List α}
    (h : List.Forall₂ (fun o v => o.result = Except.ok v) outs vs) :
    outs.filterMap (fun o => o.result.toOption) = vs := by
  induction h with
  | nil => rfl
  | cons h1 _ ih =>
    simp only [Except.toOption] at ih
    simp [List.filterMap_cons, h1, Except.toOption, ih]

/-- C4: for every list of Effects and dependency map `m`, if every member's
run against `m` resolves with value `vi`, then `Effect.all` run against `m`
resolves with the list of those values in input order. -/
theorem all_resolves_in_order (effects : List (Effect δ ε α)) (vs : List α)
    (m : DependencyMap δ) (t : Nat)
    (h : List.Forall₂ (fun e v => (e.run m t).result = Except.ok v) effects vs) :
    ((Effect.all effects).run m t).result = Except.ok vs := by
  have hmap : List.Forall₂ (fun o v => o.result = Except.ok v)
      (effects.map (fun e => e.run m t)) vs :=
    List.forall₂_map_left_iff.2 h
  have hok : ∀ o ∈ effects.map (fun e => e.run m t), ∃ v, o.result = Except.ok v :=
    forallTwo_exists_of_mem hmap
  have hnone : Effect.firstRejection (effects.map (fun e => e.run m t)) = none :=
    frStep_foldl_ok _ none hok
  show (Effect.run _ m t).result = _
  simp only [Effect.all, hnone, filterMap_result_toOption hmap]

/-- Witness for C4: `all([pure 1, pure 2, pure 3]).run({})` resolves to
`[1, 2, 3]` in input order. -/
theorem all_resolves_in_order_witness :
    ((Effect.all [Effect.pure 1, Effect.pure 2, Effect.pure 3] :
        Effect Nat String (List Nat)).run emptyDeps 0).result =
      Except.ok [1, 2, 3] := by
  exact all_resolves_in_order [Effect.pure 1, Effect.pure 2, Effect.pure 3]
    [1, 2, 3] emptyDeps 0
    (List.Forall₂.cons rfl (List.Forall₂.cons rfl (List.Forall₂.cons rfl List.Forall₂.nil)))

theorem frStep_keep_rejection (outs : List (Outcome ε α)) (tr : Nat) (err : ε)
    (h : ∀ o ∈ outs, (∃ v, o.result = Except.ok v) ∨ tr ≤ o.time) :
    outs.foldl Effect.frStep (some (tr, err)) = some (tr, err) := by
  induction outs with
  | nil => rfl
  | cons o rest ih =>
    have hstep : Effect.frStep (some (tr, err)) o = some (tr, err) := by
      rcases h o (List.mem_cons_self o rest) with ⟨v, hv⟩ | hle
      · simp [Effect.frStep, hv]
      · cases ho : o.result with
        | ok v => simp [Effect.frStep, ho]
        | error e2 => simp [Effect.frStep, ho, Nat.not_lt.mpr hle]
    rw [List.foldl_cons, hstep]
    exact ih fun o' ho' => h o' (List.mem_cons_of_mem _ ho')

theorem frStep_foldl_pre (outs : List (Outcome ε α)) (tr : Nat) :
    ∀ acc : Option (Nat × ε),
      (acc = none ∨ ∃ p, acc = some p ∧ tr < p.1) →
      (∀ o ∈ outs, (∃ v, o.result = Except.ok v) ∨ tr < o.time) →
      (outs.foldl Effect.frStep acc = none ∨
        ∃ p, outs.foldl Effect.frStep acc = some p ∧ tr < p.1) := by
  induction outs with
  | nil => intro acc hacc _; exact hacc
  | cons o rest ih =>
    intro acc hacc h
    rw [List.foldl_cons]
    refine ih (Effect.frStep acc o) ?_ fun o' ho' => h o' (List.mem_cons_of_mem _ ho')
    cases ho : o.result with
    | ok v =>
      have hs : Effect.frStep acc o = acc := by simp [Effect.frStep, ho]
      rw [hs]; exact hacc
    | error e2 =>
      have hlt : tr < o.time := by
        rcases h o (List.mem_cons_self o rest) with ⟨v, hv⟩ | hlt
        · rw [ho] at hv; cases hv
        · exact hlt
      rcases hacc with rfl | ⟨p, rfl, hp⟩
      · exact Or.inr ⟨(o.time, e2), by simp [Effect.frStep, ho], hlt⟩
      · by_cases hc : o.time < p.1
        · exact Or.inr ⟨(o.time, e2), by simp [Effect.frStep, ho, hc], hlt⟩
        · exact Or.inr ⟨p, by simp [Effect.frStep, ho, hc], hp⟩

/-- C5: fail-fast for `all` — decompose the member list around the first
rejection as `pre ++ e :: post`, where `e` rejects, every earlier member
either resolves or rejects strictly later, and every later member either
resolves or settles no earlier. Then `all` rejects with `e`'s original
error value at `e`'s settle tick — without waiting for still-pending
members (whose settle ticks may exceed it) — while the log still contains
every member's events (all are started, none cancelled) and the settled
values of other members are discarded. -/
theorem all_fail_fast (pre post : List (Effect δ ε α)) (e : Effect δ ε α)
    (m : DependencyMap δ) (t : Nat) (err : ε)
    (hrej : (e.run m t).result = Except.error err)
    (hpre : ∀ x ∈ pre, (∃ v, (x.run m t).result = Except.ok v) ∨
        (e.run m t).time < (x.run m t).time)
    (hpost : ∀ x ∈ post, (∃ v, (x.run m t).result = Except.ok v) ∨
        (e.run m t).time ≤ (x.run m t).time) :
    (Effect.all (pre ++ e :: post)).run m t =
      ⟨(((pre ++ e :: post).map (fun x => x.run m t)).map Outcome.log).flatten,
        (e.run m t).time, Except.error err⟩ := by
  have hfr : Effect.firstRejection ((pre ++ e :: post).map (fun x => x.run m t)) =
      some ((e.run m t).time, err) := by
    unfold Effect.firstRejection
    rw [List.map_append, List.map_cons, List.foldl_append, List.foldl_cons]
    have h1 := frStep_foldl_pre (pre.map (fun x => x.run m t)) (e.run m t).time
      none (Or.inl rfl)
      (by intro o ho
          rcases List.mem_map.1 ho with ⟨x, hx, rfl⟩
          exact hpre x hx)
    have hstep : Effect.frStep ((pre.map (fun x => x.run m t)).foldl
        Effect.frStep none) (e.run m t) = some ((e.run m t).time, err) := by
      rcases h1 with hn | ⟨p, hp, hplt⟩
      · rw [hn]; simp [Effect.frStep, hrej]
      · rw [hp]; simp [Effect.frStep, hrej, hplt]
    rw [hstep]
    refine frStep_keep_rejection _ _ _ ?_
    intro o ho
    rcases List.mem_map.1 ho with ⟨x, hx, rfl⟩
    exact hpost x hx
  show Effect.run _ m t = _
  simp only [Effect.all, hfr]

/-- Witness for C5: of three concrete members the second rejects at tick 1
with `boom`; the aggregate rejects at tick 1 with `boom`, before the third
member's tick 5, and the log shows all three members were started. -/
theorem all_fail_fast_witness :
    (Effect.all
      [Effect.fromPromise (fun _ => ⟨["e1"], 2, Except.ok 10⟩),
       Effect.fromPromise (fun _ => ⟨["e2"], 1, Except.error "boom"⟩),
       Effect.fromPromise (fun _ => ⟨["e3"], 5, Except.ok 30⟩)] :
        Effect Nat String (List Nat)).run emptyDeps 0 =
      ⟨["e1", "e2", "e3"], 1, Except.error "boom"⟩ := by
  have h := all_fail_fast
    [Effect.fromPromise (fun _ => ⟨["e1"], 2, Except.ok 10⟩)]
    [Effect.fromPromise (fun _ => ⟨["e3"], 5, Except.ok 30⟩)]
    (Effect.fromPromise (fun _ => ⟨["e2"], 1, Except.error "boom"⟩))
    emptyDeps 0 "boom" rfl
    (by intro x hx
        rw [List.mem_singleton] at hx
        subst hx
        exact Or.inr (by decide))
    (by intro x hx
        rw [List.mem_singleton] at hx
        subst hx
        exact Or.inr (by decide))
  rw [List.singleton_append] at h
  exact h.trans rfl

/-- C1: for every Effect `e`, continuation `fn` and dependency map `m`,
`chain` first runs `e` against `m`; if `e` rejects, the chain rejects with
the exact same error value at the same tick with only `e`'s events (so the
second stage never begins and `fn` is never invoked: the outcome is the
same for every `fn`); if `e` resolves with `v`, the Effect `fn v` is run
against the same map `m` from `e`'s settle tick and its settlement becomes
the chain's settlement. -/
theorem chain_short_circuits (e : Effect δ ε α) (m : DependencyMap δ) (t : Nat) :
    (∀ (fn : α → Effect δ ε β) (log : List String) (t1 : Nat) (err : ε),
        e.run m t = ⟨log, t1, Except.error err⟩ →
        (e.chain fn).run m t = ⟨log, t1, Except.error err⟩)
    ∧
    (∀ (fn : α → Effect δ ε β) (log : List String) (t1 : Nat) (v : α),
        e.run m t = ⟨log, t1, Except.ok v⟩ →
        (e.chain fn).run m t =
          ⟨log ++ ((fn v).run m t1).log, ((fn v).run m t1).time,
            ((fn v).run m t1).result⟩) := by
  constructor
  · intro fn log t1 err h
    show Effect.run _ m t = _
    simp only [Effect.chain, h]
  · intro fn log t1 v h
    show Effect.run _ m t = _
    simp only [Effect.chain, h]

/-- Witness for C1: a rejecting first stage short-circuits with the original
error, and a resolving first stage hands its value to the second stage. -/
theorem chain_short_circuits_witness :
    ((Effect.fromPromise (fun _ => ⟨["e1"], 1, Except.error "boom"⟩) :
        Effect Nat String Nat).chain (fun v => Effect.pure (v + 1))).run
        emptyDeps 0 = ⟨["e1"], 1, Except.error "boom"⟩
    ∧
    ((Effect.pure 5 : Effect Nat String Nat).chain
      (fun v => Effect.pure (v + 1))).run emptyDeps 0 = ⟨[], 0, Except.ok 6⟩ := by
  constructor
  · exact (chain_short_circuits _ emptyDeps 0).1 _ ["e1"] 1 "boom" rfl
  · have h := (chain_short_circuits (Effect.pure 5 : Effect Nat String Nat)
      emptyDeps 0).2 (fun v => Effect.pure (v + 1)) [] 0 5 rfl
    simpa using h

/-- C2: left identity — for every value `x`, every function `f` from values
to Effects, and every dependency map `m`, running `pure(x).chain(f)` yields
the same settlement (same events, same tick, same resolution or rejection)
as running `f(x)` against `m`. -/
theorem pure_chain_left_identity (x : α) (f : α → Effect δ ε β)
    (m : DependencyMap δ) (t : Nat) :
    ((Effect.pure x).chain f).run m t = (f x).run m t := by
  simp [Effect.pure, Effect.chain]

/-- C3: associativity — for every Effect `e`, functions `f` and `g`, map `m`
and start tick, `e.chain(f).chain(g)` and `e.chain(x => f(x).chain(g))` run
to the same settlement. -/
theorem chain_assoc (e : Effect δ ε α) (f : α → Effect δ ε β)
    (g : β → Effect δ ε γ) (m : DependencyMap δ) (t : Nat) :
    ((e.chain f).chain g).run m t = (e.chain (fun x => (f x).chain g)).run m t := by
  show Effect.run _ m t = Effect.run _ m t
  simp only [Effect.chain]
  rcases h : e.run m t with ⟨log, t1, r⟩
  cases r with
  | error err => simp
  | ok v =>
    rcases h2 : (f v).run m t1 with ⟨log2, t2, r2⟩
    cases r2 with
    | error err => simp [h2]
    | ok w => simp [h2, List.append_assoc]

/-- C8: for every transformation `fn` and Effect `e`, running
`e.transform fn` runs `e` and applies `fn` to its success value
synchronously with no additional dependency access (third conjunct: the
outcome depends on the map only through `e`); a throwing `fn` (one that
returns `Except.error`) makes the result reject with the thrown value
(first conjunct, with `fn v = Except.error err`); if `e` rejects, the
rejection propagates unchanged and `fn` is never invoked (the outcome is
the same for every `fn`). -/
theorem transform_applies_fn (e : Effect δ ε α) (m : DependencyMap δ) (t : Nat) :
    (∀ (fn : α → Except ε β) (log : List String) (t1 : Nat) (v : α),
        e.run m t = ⟨log, t1, Except.ok v⟩ →
        (e.transform fn).run m t = ⟨log, t1, fn v⟩)
    ∧
    (∀ (fn : α → Except ε β) (log : List String) (t1 : Nat) (err : ε),
        e.run m t = ⟨log, t1, Except.error err⟩ →
        (e.transform fn).run m t = ⟨log, t1, Except.error err⟩)
    ∧
    (∀ (fn : α → Except ε β) (m2 : DependencyMap δ),
        e.run m t = e.run m2 t →
        (e.transform fn).run m t = (e.transform fn).run m2 t) := by
  refine ⟨?_, ?_, ?_⟩
  · intro fn log t1 v h
    show Effect.run _ m t = _
    simp only [Effect.transform, h]
  · intro fn log t1 err h
    show Effect.run _ m t = _
    simp only [Effect.transform, h]
  · intro fn m2 h
    show Effect.run _ m t = Effect.run _ m2 t
    simp only [Effect.transform, h]

/-- Witness for C8: a successful `fn`, a throwing `fn`, and a rejecting
source Effect, each at a concrete input. -/
theorem transform_applies_fn_witness :
    ((Effect.pure 3 : Effect Nat String Nat).transform
      (fun v => Except.ok (v * 2))).run emptyDeps 0 = ⟨[], 0, Except.ok 6⟩
    ∧
    ((Effect.pure 3 : Effect Nat String Nat).transform
      (fun _ => (Except.error "thrown" : Except String Nat))).run emptyDeps 0 =
      ⟨[], 0, Except.error "thrown"⟩
    ∧
    ((Effect.fromPromise (fun _ => ⟨["src"], 2, Except.error "boom"⟩) :
        Effect Nat String Nat).transform (fun v => Except.ok (v * 2))).run
        emptyDeps 0 = ⟨["src"], 2, Except.error "boom"⟩ := by
  refine ⟨?_, ?_, ?_⟩
  · exact (transform_applies_fn (Effect.pure 3) emptyDeps 0).1
      (fun v => Except.ok (v * 2)) [] 0 3 rfl
  · exact (transform_applies_fn (Effect.pure 3) emptyDeps 0).1
      (fun _ => Except.error "thrown") [] 0 3 rfl
  · exact (transform_applies_fn _ emptyDeps 0).2.1
      (fun v => Except.ok (v * 2)) ["src"] 2 "boom" rfl

/-- C9: running `withSingleDep(depKey, fn)` performs no runtime validation
of the map: when the map has the named key, `fn` is invoked with that handle
and its settlement is adopted; when the map omits the key, `fn` is still
invoked, receiving `undefined` (`none`), and its settlement is adopted —
`run` itself raises no missing-dependency error; and the outcome depends
only on the named key, so extra unrelated entries are harmless (third
conjunct). -/
theorem withSingleDep_no_validation (depKey : String)
    (fn : Option δ → PromiseSpec ε α) (t : Nat) :
    (∀ (m : DependencyMap δ) (hdl : δ), m depKey = some hdl →
        (Effect.withSingleDep depKey fn).run m t =
          ⟨(fn (some hdl)).log, t + (fn (some hdl)).delay, (fn (some hdl)).result⟩)
    ∧
    (∀ m : DependencyMap δ, m depKey = none →
        (Effect.withSingleDep depKey fn).run m t =
          ⟨(fn none).log, t + (fn none).delay, (fn none).result⟩)
    ∧
    (∀ m1 m2 : DependencyMap δ, m1 depKey = m2 depKey →
        (Effect.withSingleDep depKey fn).run m1 t =
          (Effect.withSingleDep depKey fn).run m2 t) := by
  refine ⟨?_, ?_, ?_⟩
  · intro m hdl h
    show Effect.run _ m t = _
    simp only [Effect.withSingleDep, h]
  · intro m h
    show Effect.run _ m t = _
    simp only [Effect.withSingleDep, h]
  · intro m1 m2 h
    show Effect.run _ m1 t = Effect.run _ m2 t
    simp only [Effect.withSingleDep, h]

/-- Witness for C9: a map holding the cache handle plus an unrelated extra
entry succeeds; a map omitting the key hands `fn` the `undefined` handle and
adopts whatever `fn` then does. -/
theorem withSingleDep_no_validation_witness :
    (Effect.withSingleDep "cache"
      (fun hdl =>
        match hdl with
        | some x => (⟨["cache-hit"], 0, Except.ok x⟩ : PromiseSpec String Nat)
        | none => ⟨["saw-undefined"], 0, Except.ok 0⟩)).run
      (fun k => if k = "cache" then some 7 else if k = "db" then some 99 else none) 0 =
      ⟨["cache-hit"], 0, Except.ok 7⟩
    ∧
    (Effect.withSingleDep "cache"
      (fun hdl =>
        match hdl with
        | some x => (⟨["cache-hit"], 0, Except.ok x⟩ : PromiseSpec String Nat)
        | none => ⟨["saw-undefined"], 0, Except.ok 0⟩)).run emptyDeps 0 =
      ⟨["saw-undefined"], 0, Except.ok 0⟩ := by
  constructor
  · exact (withSingleDep_no_validation "cache" _ 0).1
      (fun k => if k = "cache" then some 7 else if k = "db" then some 99 else none)
      7 rfl
  · exact (withSingleDep_no_validation "cache" _ 0).2.1 emptyDeps rfl

theorem seqRun_all_ok (m : DependencyMap δ) {effects : List (Effect δ ε α)}
    {vs : List α}
    (hf : List.Forall₂ (fun e v => ∀ t', (e.run m t').result = Except.ok v)
      effects vs) :
    ∀ t, (Effect.seqRun m effects t).result = Except.ok vs := by
  induction hf with
  | nil => intro t; rfl
  | @cons a b l1 l2 h1 h2 ih =>
    intro t
    cases hr : (a.run m t).result with
    | error err =>
      rw [h1 t] at hr
      cases hr
    | ok v =>
      have hv : b = v := by
        have hbv := (h1 t).symm.trans hr
        injection hbv
      subst hv
      show (Effect.seqRun m (a :: l1) t).result = Except.ok (b :: l2)
      simp only [Effect.seqRun, hr, ih ((a.run m t).time)]

theorem seqRun_fail (m : DependencyMap δ) :
    ∀ (pre : List (Effect δ ε α)) (e : Effect δ ε α)
      (post : List (Effect δ ε α)) (t : Nat),
      (∀ x ∈ pre, ∀ t', ∃ v, (x.run m t').result = Except.ok v) →
      (∀ t', ∃ err, (e.run m t').result = Except.error err) →
      Effect.seqRun m (pre ++ e :: post) t = Effect.seqRun m (pre ++ [e]) t ∧
        ∃ err, (Effect.seqRun m (pre ++ e :: post) t).result = Except.error err := by
  intro pre
  induction pre with
  | nil =>
    intro e post t _ he
    rcases he t with ⟨err, herr⟩
    constructor
    · show Effect.seqRun m (e :: post) t = Effect.seqRun m (e :: []) t
      simp only [Effect.seqRun, herr]
    · refine ⟨err, ?_⟩
      show (Effect.seqRun m (e :: post) t).result = _
      simp only [Effect.seqRun, herr]
  | cons x pre' ih =>
    intro e post t hpre he
    rcases hpre x (List.mem_cons_self x pre') t with ⟨v, hv⟩
    have ihe := ih e post ((x.run m t).time)
      (fun y hy => hpre y (List.mem_cons_of_mem _ hy)) he
    constructor
    · show Effect.seqRun m (x :: (pre' ++ e :: post)) t =
        Effect.seqRun m (x :: (pre' ++ [e])) t
      simp only [Effect.seqRun, hv, ihe.1]
    · rcases ihe.2 with ⟨err, herr⟩
      refine ⟨err, ?_⟩
      show (Effect.seqRun m (x :: (pre' ++ e :: post)) t).result = _
      simp only [Effect.seqRun, hv, herr]

/-- C6: `sequence` runs its members one at a time in list order, each
started only at the tick the previous one resolved. First conjunct: when
every member resolves (with a start-tick-independent value), the aggregate
resolves with the ordered list of those values. Second conjunct: when the
members before position `k` resolve and the member at position `k` rejects,
the aggregate's whole outcome equals that of the list truncated right after
position `k` — so no member after the failure point is ever started — and
the aggregate rejects with that member's error. -/
theorem sequence_in_order_short_circuits (m : DependencyMap δ) (t : Nat) :
    (∀ (effects : List (Effect δ ε α)) (vs : List α),
        List.Forall₂ (fun e v => ∀ t', (e.run m t').result = Except.ok v)
          effects vs →
        ((Effect.sequence effects).run m t).result = Except.ok vs)
    ∧
    (∀ (pre post : List (Effect δ ε α)) (e : Effect δ ε α),
        (∀ x ∈ pre, ∀ t', ∃ v, (x.run m t').result = Except.ok v) →
        (∀ t', ∃ err, (e.run m t').result = Except.error err) →
        ((Effect.sequence (pre ++ e :: post)).run m t =
            (Effect.sequence (pre ++ [e])).run m t ∧
          ∃ err, ((Effect.sequence (pre ++ e :: post)).run m t).result =
            Except.error err)) := by
  constructor
  · intro effects vs hf
    exact seqRun_all_ok m hf t
  · intro pre post e hpre he
    exact seqRun_fail m pre e post t hpre he

/-- Witness for C6: with `e1` logging `e1` and resolving, `e2` logging `e2`
and rejecting with `boom`, and `e3` logging `e3`, `sequence([e1, e2, e3])`
settles exactly as `sequence([e1, e2])` does: the recorded order is
`[e1, e2]`, `e3` never runs, and the aggregate rejects with `boom`. -/
theorem sequence_in_order_short_circuits_witness :
    (Effect.sequence
      [Effect.fromPromise (fun _ => ⟨["e1"], 1, Except.ok 1⟩),
       Effect.fromPromise (fun _ => ⟨["e2"], 1, Except.error "boom"⟩),
       Effect.fromPromise (fun _ => ⟨["e3"], 1, Except.ok 3⟩)] :
        Effect Nat String (List Nat)).run emptyDeps 0 =
      ⟨["e1", "e2"], 2, Except.error "boom"⟩ := by
  have h := (sequence_in_order_short_circuits emptyDeps 0).2
    [Effect.fromPromise (fun _ => ⟨["e1"], 1, Except.ok 1⟩)]
    [Effect.fromPromise (fun _ => ⟨["e3"], 1, Except.ok 3⟩)]
    (Effect.fromPromise (fun _ => ⟨["e2"], 1, Except.error "boom"⟩))
    (by intro x hx
        rw [List.mem_singleton] at hx
        subst hx
        exact fun t' => ⟨1, rfl⟩)
    (fun t' => ⟨"boom", rfl⟩)
  rw [List.singleton_append] at h
  exact h.1.trans rfl

theorem earliestSettled_min_acc (os : List (Outcome ε α)) :
    ∀ acc : Outcome ε α, (∀ o ∈ os, acc.time ≤ o.time) →
      Effect.earliestSettled acc os = acc := by
  induction os with
  | nil => intro acc _; rfl
  | cons o rest ih =>
    intro acc h
    have hno : ¬ o.time < acc.time := Nat.not_lt.mpr (h o (List.mem_cons_self o rest))
    show Effect.earliestSettled (if o.time < acc.time then o else acc) rest = acc
    rw [if_neg hno]
    exact ih acc fun o' ho' => h o' (List.mem_cons_of_mem _ ho')

theorem earliestSettled_min_mid (preO : List (Outcome ε α)) :
    ∀ (w : Outcome ε α) (postO : List (Outcome ε α)) (acc : Outcome ε α),
      w.time < acc.time →
      (∀ o ∈ preO, w.time < o.time) →
      (∀ o ∈ postO, w.time < o.time) →
      Effect.earliestSettled acc (preO ++ w :: postO) = w := by
  induction preO with
  | nil =>
    intro w postO acc hacc _ hpost
    show Effect.earliestSettled (if w.time < acc.time then w else acc) postO = w
    rw [if_pos hacc]
    exact earliestSettled_min_acc postO w fun o ho => Nat.le_of_lt (hpost o ho)
  | cons o preO' ih =>
    intro w postO acc hacc hpre hpost
    show Effect.earliestSettled (if o.time < acc.time then o else acc)
      (preO' ++ w :: postO) = w
    by_cases hc : o.time < acc.time
    · rw [if_pos hc]
      exact ih w postO o (hpre o (List.mem_cons_self o preO'))
        (fun o' ho' => hpre o' (List.mem_cons_of_mem _ ho')) hpost
    · rw [if_neg hc]
      exact ih w postO acc hacc
        (fun o' ho' => hpre o' (List.mem_cons_of_mem _ ho')) hpost

/-- C7: for a non-empty list of Effects (`e :: rest`), `race` starts every
member against the same map (the log collects every member's events) and
settles exactly as the first member to settle does — adopting that member's
settle tick and its resolution or rejection, whichever it is. The first
member to settle is exhibited as the `w` of a decomposition
`e :: rest = pre ++ w :: post` whose settle tick is strictly below every
other member's. -/
theorem race_adopts_first_settlement (e : Effect δ ε α)
    (rest pre post : List (Effect δ ε α)) (w : Effect δ ε α)
    (m : DependencyMap δ) (t : Nat)
    (hsplit : e :: rest = pre ++ w :: post)
    (hpre : ∀ x ∈ pre, (w.run m t).time < (x.run m t).time)
    (hpost : ∀ x ∈ post, (w.run m t).time < (x.run m t).time) :
    (Effect.race e rest).run m t =
      ⟨((e :: rest).map (fun x => (x.run m t).log)).flatten,
        (w.run m t).time, (w.run m t).result⟩ := by
  have hw : Effect.earliestSettled (e.run m t) (rest.map (fun x => x.run m t)) =
      w.run m t := by
    cases pre with
    | nil =>
      injection hsplit with h1 h2
      subst h1
      subst h2
      exact earliestSettled_min_acc _ _ (by
        intro o ho
        rcases List.mem_map.1 ho with ⟨x, hx, rfl⟩
        exact Nat.le_of_lt (hpost x hx))
    | cons p pre' =>
      injection hsplit with h1 h2
      subst h1
      rw [List.append_eq] at h2
      rw [h2, List.map_append, List.map_cons]
      exact earliestSettled_min_mid _ _ _ _
        (hpre e (List.mem_cons_self e pre'))
        (by intro o ho
            rcases List.mem_map.1 ho with ⟨x, hx, rfl⟩
            exact hpre x (List.mem_cons_of_mem _ hx))
        (by intro o ho
            rcases List.mem_map.1 ho with ⟨x, hx, rfl⟩
            exact hpost x hx)
  show Effect.run _ m t = _
  simp only [Effect.race, hw, List.map_cons, List.flatten_cons, List.map_map]
  rfl

/-- Witness for C7: racing the immediately-resolving `pure "fast"` against
a member that resolves at tick 5 with `slow` resolves to `fast` at tick 0;
the slow member was still started (its event is in the log). -/
theorem race_adopts_first_settlement_witness :
    (Effect.race (Effect.pure "fast")
      [Effect.fromPromise (fun _ => ⟨["slow-cb"], 5, Except.ok "slow"⟩)] :
        Effect Nat String String).run emptyDeps 0 =
      ⟨["slow-cb"], 0, Except.ok "fast"⟩ := by
  have h := race_adopts_first_settlement
    (Effect.pure "fast" : Effect Nat String String)
    [Effect.fromPromise (fun _ => ⟨["slow-cb"], 5, Except.ok "slow"⟩)]
    [] [Effect.fromPromise (fun _ => ⟨["slow-cb"], 5, Except.ok "slow"⟩)]
    (Effect.pure "fast") emptyDeps 0 rfl
    (by intro x hx; cases hx)
    (by intro x hx
        rw [List.mem_singleton] at hx
        subst hx
        decide)
  exact h.trans rfl

/-- C10: laziness. The first nine conjuncts state that every constructor —
`pure`, `fromPromise`, `withSingleDep`, `withDeps`, `transform`, `chain`,
`all`, `race`, `sequence` — leaves the callback-invocation count unchanged
for all arguments, so any nesting of constructions, being a composition of
these steps, performs no user-callback invocation. The last two conjuncts
show the work happens only at `run` and is repeated on every call: running
a constructed Effect emits its callback's invocation event, and two `run`
calls emit it twice — no memoization across calls. -/
theorem construction_is_lazy :
    (∀ (n : Nat) (value : α), ((pureSync value : Sync (Effect δ ε α)) n).2 = n)
    ∧
    (∀ (n : Nat) (promiseFn : Unit → PromiseSpec ε α),
      ((fromPromiseSync promiseFn : Sync (Effect δ ε α)) n).2 = n)
    ∧
    (∀ (n : Nat) (depKey : String) (fn : Option δ → PromiseSpec ε α),
      ((withSingleDepSync depKey fn : Sync (Effect δ ε α)) n).2 = n)
    ∧
    (∀ (n : Nat) (fn : DependencyMap δ → PromiseSpec ε α),
      ((withDepsSync fn : Sync (Effect δ ε α)) n).2 = n)
    ∧
    (∀ (n : Nat) (e : Effect δ ε α) (fn : α → Except ε β),
      ((transformSync e fn) n).2 = n)
    ∧
    (∀ (n : Nat) (e : Effect δ ε α) (fn : α → Effect δ ε β),
      ((chainSync e fn) n).2 = n)
    ∧
    (∀ (n : Nat) (effects : List (Effect δ ε α)), ((allSync effects) n).2 = n)
    ∧
    (∀ (n : Nat) (e : Effect δ ε α) (rest : List (Effect δ ε α)),
      ((raceSync e rest) n).2 = n)
    ∧
    (∀ (n : Nat) (effects : List (Effect δ ε α)),
      ((sequenceSync effects) n).2 = n)
    ∧
    ((Effect.fromPromise (fun _ => ⟨["invoked"], 0, Except.ok 0⟩) :
        Effect Nat String Nat).run emptyDeps 0).log = ["invoked"]
    ∧
    (((Effect.fromPromise (fun _ => ⟨["invoked"], 0, Except.ok 0⟩) :
        Effect Nat String Nat).run emptyDeps 0).log ++
      ((Effect.fromPromise (fun _ => ⟨["invoked"], 0, Except.ok 0⟩) :
        Effect Nat String Nat).run emptyDeps 0).log = ["invoked", "invoked"]) :=
  ⟨fun _ _ => rfl, fun _ _ => rfl, fun _ _ _ => rfl, fun _ _ => rfl,
    fun _ _ _ => rfl, fun _ _ _ => rfl, fun _ _ => rfl, fun _ _ _ => rfl,
    fun _ _ => rfl, rfl, rfl⟩

end EffectChain
